import Mathlib

/-!
# Verification of the `ai` command-line tool (brainexe/ai)

A shallow embedding, in Lean 4, of the core of the single-file Go program
`main.go` of the `ai` CLI: argument parsing (`main`), the response
normalizer (`extractCandidates` and the fallback chain inside
`getCommands`), the command sanitizer (`sanitizeToSingleCommand`), and the
fan-out aggregation logic of `getCommands` (channel collection, first
error, deduplication, duration bookkeeping) together with the dispatch in
`main` and the verbose report of `printVerboseOutput`.

Strings are modelled by Lean `String` / `List Char`; Go `time.Duration`
(a nonnegative int64 count of nanoseconds, always produced here by
`time.Since`) is modelled by `Nat`; Go `error` values are modelled by
`Option String` carrying the error message.  The network is abstracted
away: the aggregation functions take, as input, the list of per-call
results in the order they were received from the result channel
(completion order).
-/

/-! ## Go `strings.TrimSpace`

Go's `strings.TrimSpace` removes leading and trailing characters
satisfying `unicode.IsSpace`: `'\t'`, `'\n'`, `'\v'`, `'\f'`, `'\r'`,
`' '`, U+0085, U+00A0, and the Unicode `White_Space` code points. -/

/-- Go's `unicode.IsSpace` predicate. -/
def goIsSpace (c : Char) : Bool :=
  c = ' ' || c = '\t' || c = '\n' || c.val = 11 || c.val = 12 || c = '\r' ||
  c.val = 0x85 || c.val = 0xA0 || c.val = 0x1680 ||
  (0x2000 ≤ c.val && c.val ≤ 0x200A) ||
  c.val = 0x2028 || c.val = 0x2029 || c.val = 0x202F || c.val = 0x205F ||
  c.val = 0x3000

/-- Go's `strings.TrimSpace` on a list of characters: drop the longest
run of space characters from the front and from the back. -/
def trimSpace (l : List Char) : List Char :=
  (l.dropWhile goIsSpace).rdropWhile goIsSpace

/-- Go's `strings.TrimSpace` on a `String`. -/
def trimString (s : String) : String :=
  String.mk (trimSpace s.data)

theorem mem_trimSpace {c : Char} {l : List Char} (h : c ∈ trimSpace l) :
    c ∈ l :=
  (List.dropWhile_suffix goIsSpace).subset
    ((List.rdropWhile_prefix goIsSpace (l.dropWhile goIsSpace)).subset h)

theorem trimSpace_idem (l : List Char) :
    trimSpace (trimSpace l) = trimSpace l := by
  unfold trimSpace
  have hpre : (l.dropWhile goIsSpace).rdropWhile goIsSpace <+:
      l.dropWhile goIsSpace := List.rdropWhile_prefix _ _
  have hdrop :
      ((l.dropWhile goIsSpace).rdropWhile goIsSpace).dropWhile goIsSpace =
      (l.dropWhile goIsSpace).rdropWhile goIsSpace := by
    rw [List.dropWhile_eq_self_iff]
    intro hl
    obtain ⟨w, hw⟩ := hpre
    have hlen : 0 < (l.dropWhile goIsSpace).length := by
      rw [← hw]
      simp only [List.length_append]
      omega
    have ht := List.dropWhile_idempotent (l := l) (p := goIsSpace)
    rw [List.dropWhile_eq_self_iff] at ht
    have h0 := ht hlen
    have key : ∀ (u w t : List Char), u ++ w = t → ∀ (h1 : 0 < u.length)
        (h2 : 0 < t.length), t.get ⟨0, h2⟩ = u.get ⟨0, h1⟩ := by
      intro u w t he h1 h2
      subst he
      simp only [List.get_eq_getElem]
      exact List.getElem_append_left h1
    rw [key _ _ _ hw hl hlen] at h0
    exact h0
  rw [hdrop, List.rdropWhile_idempotent]

/-! ## The command sanitizer (`sanitizeToSingleCommand`, main.go lines 448-471)

The two package-level regular expressions are

  codeBlockRe = "(?s)```(?:sh|bash|zsh)?\n(.*?)\n```"
  firstLineRe = "(?m)^[^\n#;][^\n]*"

Both are modelled by direct recursive functions implementing the Go
regexp (RE2 leftmost-first) semantics of those concrete patterns. -/

/-- The backtick character U+0060 (the delimiter of fenced code
blocks). -/
def btick : Char := Char.ofNat 96

/-- The lazy group of `codeBlockRe`: the (shortest) prefix of `s` that is
followed by the closing `"\n```"`, i.e. the text before the first
occurrence of `"\n```"`.  `none` when `"\n```"` does not occur. -/
def findNlTicks : List Char → Option (List Char)
  | [] => none
  | c :: rest =>
    if ('\n' :: btick :: btick :: btick :: []).isPrefixOf (c :: rest) then
      some []
    else
      (findNlTicks rest).map (fun g => c :: g)

/-- One alternative of the optional language tag of `codeBlockRe`: after
the opening backticks, try to consume `tag` followed by `"\n"` and then
find the closing `"\n```"`. -/
def tryTag (r : List Char) (tag : List Char) : Option (List Char) :=
  if (tag ++ ['\n']).isPrefixOf r then
    findNlTicks (r.drop (tag.length + 1))
  else
    none

/-- Match `codeBlockRe` anchored at the start of `s`, returning the
capture group.  The alternatives of `(?:sh|bash|zsh)?` are tried in the
regexp's order (`sh`, `bash`, `zsh`, empty); their required prefixes are
pairwise incompatible, so this is exactly RE2's backtracking order. -/
def matchCodeBlockAt (s : List Char) : Option (List Char) :=
  if (btick :: btick :: btick :: []).isPrefixOf s then
    let r := s.drop 3
    match tryTag r ['s', 'h'] with
    | some g => some g
    | none =>
      match tryTag r ['b', 'a', 's', 'h'] with
      | some g => some g
      | none =>
        match tryTag r ['z', 's', 'h'] with
        | some g => some g
        | none => tryTag r []
  else
    none

/-- `codeBlockRe.FindStringSubmatch`: the capture group of the leftmost
match of `codeBlockRe` in `s` (`none` when there is no match). -/
def findCodeBlock : List Char → Option (List Char)
  | [] => none
  | c :: rest =>
    match matchCodeBlockAt (c :: rest) with
    | some g => some g
    | none => findCodeBlock rest

/-- Split on `'\n'`, keeping empty lines; the positions where the
multiline anchor `^` of `firstLineRe` can match are exactly the starts
of these lines. -/
def splitNl : List Char → List (List Char)
  | [] => [[]]
  | c :: rest =>
    let r := splitNl rest
    if c = '\n' then
      [] :: r
    else
      match r with
      | [] => [[c]]
      | h :: t => (c :: h) :: t

/-- `firstLineRe.FindString`: the first line that is nonempty and whose
first character is neither `'#'` nor `';'` (a match of `[^\n#;][^\n]*`
at a line start is that whole line).  `none` models the empty
`FindString` result. -/
def firstGoodLine : List (List Char) → Option (List Char)
  | [] => none
  | l :: rest =>
    match l with
    | [] => firstGoodLine rest
    | c :: cs =>
      if c = '#' ∨ c = ';' then firstGoodLine rest else some (c :: cs)

/-- Go's `strings.TrimPrefix` on lists of characters. -/
def trimPrefixL (pre s : List Char) : List Char :=
  if pre.isPrefixOf s then s.drop pre.length else s

/-- Step 2 of the sanitizer (main.go lines 454-456): if `codeBlockRe`
matches, replace the working text by the trimmed capture group. -/
def sanitizeStep2 (l : List Char) : List Char :=
  match findCodeBlock l with
  | some g => trimSpace g
  | none => l

/-- Step 3 of the sanitizer (main.go lines 458-460): if `firstLineRe`
finds a (necessarily nonempty) match, replace the working text by the
trimmed match. -/
def sanitizeStep3 (l : List Char) : List Char :=
  match firstGoodLine (splitNl l) with
  | some m => trimSpace m
  | none => l

/-- Step 4 of the sanitizer (main.go lines 462-464): if the working text
still contains `'\n'`, truncate it before the first `'\n'` and trim. -/
def sanitizeStep4 (l : List Char) : List Char :=
  if l.contains '\n' then
    trimSpace (l.takeWhile (fun c => c ≠ '\n'))
  else
    l

/-- `sanitizeToSingleCommand` (main.go lines 451-471) on a list of
characters: trim, extract a fenced code block, reduce to the first
non-comment line, cut at the first newline, strip a leading `"$ "` or
`"> "` prompt marker, and trim. -/
def sanitizeCore (l : List Char) : List Char :=
  trimSpace
    (trimPrefixL ['>', ' ']
      (trimPrefixL ['$', ' ']
        (sanitizeStep4 (sanitizeStep3 (sanitizeStep2 (trimSpace l))))))

/-- `sanitizeToSingleCommand` on `String`s. -/
def sanitizeToSingleCommand (s : String) : String :=
  String.mk (sanitizeCore s.data)

/-- The per-call command-list construction of `getCommands` (main.go
lines 367-373): sanitize every candidate and keep the nonempty results,
in order. -/
def buildCommands (candidates : List String) : List String :=
  candidates.foldl
    (fun commands c =>
      let cmd := sanitizeToSingleCommand c
      if cmd ≠ "" then commands ++ [cmd] else commands)
    []

/-! ## Response shapes and the normalizer (main.go lines 34-68, 349-365, 433-446)

The JSON-decoded response envelope `responseResp` and the candidate
extraction.  Go `string` fields are `String`, slices are `List`. -/

structure contentPart where
  type : String := ""
  text : String := ""
deriving Repr, DecidableEq

structure outputItem where
  type : String := ""
  text : String := ""
  content : List contentPart := []
  role : String := ""
deriving Repr, DecidableEq

structure candidatePart where
  type : String := ""
  text : String := ""
deriving Repr, DecidableEq

structure candidateContent where
  type : String := ""
  parts : List candidatePart := []
deriving Repr, DecidableEq

structure candidate where
  content : candidateContent := {}
deriving Repr, DecidableEq

structure responseResp where
  id : String := ""
  object : String := ""
  created : Int := 0
  model : String := ""
  output : List outputItem := []
  outputText : String := ""
  candidates : List candidate := []
deriving Repr, DecidableEq

/-- The first loop of `extractCandidates` (main.go lines 435-441):
flatten the non-blank part texts of the `candidates` collection, in
document order (strategy 1 of the normalizer). -/
def candidateParts (rr : responseResp) : List String :=
  rr.candidates.foldl
    (fun out c =>
      c.content.parts.foldl
        (fun out2 p => if trimString p.text ≠ "" then out2 ++ [p.text] else out2)
        out)
    []

/-- `extractCandidates` (main.go lines 433-446): strategy 1, then, if it
yielded nothing and `OutputText` is non-empty, the whole `OutputText`. -/
def extractCandidates (rr : responseResp) : List String :=
  let out := candidateParts rr
  if out = [] ∧ rr.outputText ≠ "" then [rr.outputText] else out

/-- The fallback loop over `rr.Output` inside `getCommands` (main.go
lines 354-364), strategy 3 of the normalizer: for each output item, its
direct text if non-blank, else the non-blank texts of its content
parts. -/
def outputFallback (rr : responseResp) : List String :=
  rr.output.foldl
    (fun acc it =>
      if trimString it.text ≠ "" then acc ++ [it.text]
      else if it.content ≠ [] then
        it.content.foldl
          (fun a2 p => if trimString p.text ≠ "" then a2 ++ [p.text] else a2)
          acc
      else acc)
    []

/-- The full candidate pipeline of `getCommands` (main.go lines
349-365): `extractCandidates`, then the (redundant) `OutputText`
fallback, then the output-items fallback, each only when the candidate
list is still empty. -/
def pipelineCandidates (rr : responseResp) : List String :=
  let c0 := extractCandidates rr
  let c1 := if c0 = [] ∧ rr.outputText ≠ "" then [rr.outputText] else c0
  if c1 = [] then outputFallback rr else c1

/-! ## Per-call results and the fan-out aggregation (main.go lines 70-75, 270-431)

`apiCallResult` models one entry of the Go struct of the same name; the
`Duration` (nonnegative int64 nanoseconds from `time.Since`) is a `Nat`
and the `error` is the error message, when present.  `RawResponse` is
kept as an optional string of response bytes. -/

structure CallResult where
  commands : List String := []
  duration : Nat := 0
  rawResponse : Option String := none
  error : Option String := none
deriving Repr, DecidableEq

/-- The channel-collection loop of `getCommands` (main.go lines
390-399), processing the per-call results in the order they arrive on
the channel (completion order): remember the first error seen and append
every result to `allResults`. -/
def collectAux : Option String × List CallResult → List CallResult →
    Option String × List CallResult
  | st, [] => st
  | (firstError, allResults), r :: rest =>
    collectAux
      (match firstError with
       | some e => some e
       | none => r.error,
       allResults ++ [r])
      rest

/-- `collect completionOrder` is the state `(firstError, allResults)`
after the collection loop has consumed every channel message. -/
def collect (completionOrder : List CallResult) :
    Option String × List CallResult :=
  collectAux (none, []) completionOrder

/-- The deduplication loop of `getCommands` (main.go lines 405-415):
scan the collected results in order, keeping the first occurrence of
each command (the Go `seen` set always holds exactly the commands
already appended to `unique`, so it is modelled by membership in the
accumulator). -/
def dedupeCommands (allResults : List CallResult) : List String :=
  allResults.foldl
    (fun unique r =>
      r.commands.foldl
        (fun u cmd => if u.contains cmd then u else u ++ [cmd])
        unique)
    []

/-- The aggregation tail of `getCommands` (main.go lines 390-431), as a
function of the per-call results in completion order: if any call
carried an error return the first one seen, otherwise return the
combined result (deduplicated commands, summed duration, no raw
response) followed by all individual results. -/
def getCommands (completionOrder : List CallResult) :
    Except String (List CallResult) :=
  match collect completionOrder with
  | (some e, _) => Except.error e
  | (none, allResults) =>
    let unique := dedupeCommands allResults
    let totalDuration := allResults.foldl (fun acc r => acc + r.duration) 0
    Except.ok
      ({ commands := unique, duration := totalDuration,
         rawResponse := none, error := none } :: allResults)

/-- The "Average API request time" of `printVerboseOutput` (main.go line
181): the combined result's duration divided (integer division, as for
Go's int64-backed `time.Duration`) by the number of individual results.
The Go code computes it only when there is at least one individual
result. -/
def averageDuration (results : List CallResult) : Nat :=
  match results with
  | [] => 0
  | combined :: individual => combined.duration / individual.length

/-! ## `main`: dispatch after `getCommands` (main.go lines 130-163) -/

/-- What `main` does with the value returned by `getCommands`, up to the
interactive selection: report the API error (exit 1), report
"No commands generated" (exit 1), or proceed to selection with the
combined result's command list. -/
inductive MainOutcome where
  | apiError (msg : String)
  | noCommands
  | selection (commands : List String)
deriving Repr, DecidableEq

/-- Main.go lines 130-146: the error branch, the
`len(results) == 0 || len(results[0].Commands) == 0` branch, and the
call of `selectCommand(results[0].Commands)`. -/
def mainDispatch (res : Except String (List CallResult)) : MainOutcome :=
  match res with
  | Except.error e => MainOutcome.apiError e
  | Except.ok [] => MainOutcome.noCommands
  | Except.ok (r0 :: _) =>
    if r0.commands = [] then MainOutcome.noCommands
    else MainOutcome.selection r0.commands

/-- The message printed to stderr for the two failing outcomes
(main.go lines 132 and 136). -/
def outcomeMessage : MainOutcome → Option String
  | MainOutcome.apiError e => some ("API error: " ++ e)
  | MainOutcome.noCommands => some "No commands generated"
  | MainOutcome.selection _ => none

/-- The exit code of the two failing outcomes (main.go lines 133 and
137); `selection` continues instead of exiting, encoded as `none`. -/
def outcomeExitCode : MainOutcome → Option Nat
  | MainOutcome.apiError _ => some 1
  | MainOutcome.noCommands => some 1
  | MainOutcome.selection _ => none

/-! ## Argument parsing (main.go lines 77-125)

`parseArgs` models `main` from the `len(os.Args) < 2` check through the
construction of `task`, excluding the `OPENAI_TOKEN` check (an
environment lookup that does not affect the task text).  `none` models
`os.Exit(2)`, which in every such branch happens before any network
call. -/

/-- Go's `strconv.Atoi`: optional sign, then at least one decimal digit
and nothing else, within the int64 range. -/
def goAtoi (s : String) : Option Int :=
  let digitsVal : List Char → Option Nat := fun ds =>
    if ds = [] then none
    else if ds.all (fun c => '0' ≤ c ∧ c ≤ '9') then
      some (ds.foldl (fun a c => a * 10 + (c.toNat - '0'.toNat)) 0)
    else none
  match s.data with
  | [] => none
  | c :: rest =>
    let signed : Bool × List Char :=
      if c = '-' then (true, rest)
      else if c = '+' then (false, rest)
      else (false, s.data)
    match digitsVal signed.2 with
    | none => none
    | some n =>
      let v : Int := if signed.1 then -(n : Int) else (n : Int)
      if v < -(2 ^ 63) ∨ 2 ^ 63 - 1 < v then none else some v

/-- The flag loop of `main` (main.go lines 88-112) on the argument
suffix starting at index `i`, carrying `verbose`, `numCommands` and
`taskStart`.  Note that the `break` in the `default` case of the Go
`switch` terminates only the `switch`, not the surrounding `for` loop,
so the loop keeps scanning (and keeps overwriting `taskStart`) after the
first non-flag word.  `none` models the `os.Exit(2)` branches of the
`-n` case. -/
def parseLoop : List String → Nat → Bool → Int → Nat →
    Option (Bool × Int × Nat)
  | [], _, verbose, numCommands, taskStart =>
    some (verbose, numCommands, taskStart)
  | a :: rest, i, verbose, numCommands, _taskStart =>
    if a = "-v" then
      parseLoop rest (i + 1) true numCommands (i + 1)
    else if a = "-n" then
      match rest with
      | [] => none
      | num :: rest2 =>
        match goAtoi num with
        | none => none
        | some k =>
          if k < 1 then none
          else parseLoop rest2 (i + 2) verbose k (i + 2)
    else
      parseLoop rest (i + 1) verbose numCommands i

/-- The result of argument parsing when `main` does not exit: the
`verbose` flag, `numCommands`, and the `task` string built at main.go
line 125 as `strings.Join(os.Args[taskStart:], " ")`. -/
structure ParsedArgs where
  verbose : Bool
  numCommands : Int
  task : String
deriving Repr, DecidableEq

/-- Main.go lines 77-125: the usage check, the flag loop, the
`taskStart >= len(os.Args)` usage check, and the join producing `task`.
`args` is the full `os.Args`, program name included.  A `none` result is
`os.Exit(2)` before any network call. -/
def parseArgs (args : List String) : Option ParsedArgs :=
  if args.length < 2 then none
  else
    match parseLoop (args.drop 1) 1 false 3 1 with
    | none => none
    | some (verbose, numCommands, taskStart) =>
      if args.length ≤ taskStart then none
      else some ⟨verbose, numCommands, String.intercalate " " (args.drop taskStart)⟩

/-! ## Lemmas about the sanitizer -/

theorem mem_trimPrefixL {c : Char} {pre l : List Char}
    (h : c ∈ trimPrefixL pre l) : c ∈ l := by
  unfold trimPrefixL at h
  split at h
  · exact List.drop_subset _ _ h
  · exact h

theorem sanitizeStep4_no_nl (l : List Char) : '\n' ∉ sanitizeStep4 l := by
  intro h
  unfold sanitizeStep4 at h
  split at h
  · have := List.mem_takeWhile_imp (mem_trimSpace h)
    simp at this
  · next hc =>
    exact hc (by simpa [List.contains] using List.elem_iff.mpr h)

theorem sanitizeCore_no_nl (l : List Char) : '\n' ∉ sanitizeCore l := by
  intro h
  exact sanitizeStep4_no_nl _
    (mem_trimPrefixL (mem_trimPrefixL (mem_trimSpace h)))

theorem sanitizeCore_trimmed (l : List Char) :
    trimSpace (sanitizeCore l) = sanitizeCore l := by
  unfold sanitizeCore
  exact trimSpace_idem _

theorem tryTag_nl {r tag g : List Char} (h : tryTag r tag = some g) :
    '\n' ∈ r := by
  unfold tryTag at h
  split at h
  · next hp =>
    exact (List.isPrefixOf_iff_prefix.mp hp).subset (by simp)
  · exact absurd h (by simp)

theorem matchCodeBlockAt_nl {s g : List Char}
    (h : matchCodeBlockAt s = some g) : '\n' ∈ s := by
  unfold matchCodeBlockAt at h
  split at h
  · have hr : '\n' ∈ s.drop 3 := by
      simp only at h
      repeat' split at h
      all_goals first
        | (next ht => exact tryTag_nl ht)
        | exact tryTag_nl h
    exact List.drop_subset _ _ hr
  · exact absurd h (by simp)

theorem findCodeBlock_none {l : List Char} (h : '\n' ∉ l) :
    findCodeBlock l = none := by
  induction l with
  | nil => rfl
  | cons c rest ih =>
    unfold findCodeBlock
    have hm : matchCodeBlockAt (c :: rest) = none := by
      cases hx : matchCodeBlockAt (c :: rest) with
      | none => rfl
      | some g => exact absurd (matchCodeBlockAt_nl hx) h
    rw [hm]
    exact ih (fun hmem => h (List.mem_cons_of_mem _ hmem))

theorem splitNl_single {l : List Char} (h : '\n' ∉ l) : splitNl l = [l] := by
  induction l with
  | nil => rfl
  | cons c rest ih =>
    have hc : c ≠ '\n' := fun hc => h (hc ▸ List.mem_cons_self _ _)
    have hr := ih (fun hmem => h (List.mem_cons_of_mem _ hmem))
    unfold splitNl
    simp [hc, hr]

theorem sanitizeStep2_id {l : List Char} (h : '\n' ∉ l) :
    sanitizeStep2 l = l := by
  unfold sanitizeStep2
  rw [findCodeBlock_none h]

theorem sanitizeStep3_id {l : List Char} (h : '\n' ∉ l)
    (ht : trimSpace l = l) : sanitizeStep3 l = l := by
  unfold sanitizeStep3
  rw [splitNl_single h]
  cases l with
  | nil => rfl
  | cons c cs =>
    by_cases hc : c = '#' ∨ c = ';'
    · simp [firstGoodLine, hc]
    · simp only [firstGoodLine, hc, if_false]
      simpa [hc] using ht

theorem sanitizeStep4_id {l : List Char} (h : '\n' ∉ l) :
    sanitizeStep4 l = l := by
  have hcon : l.contains '\n' = false := by
    cases hx : l.contains '\n' with
    | false => rfl
    | true => exact absurd (by simpa [List.contains] using List.elem_iff.mp hx) h
  unfold sanitizeStep4
  rw [hcon]
  simp

theorem trimPrefixL_id {pre l : List Char} (h : pre.isPrefixOf l = false) :
    trimPrefixL pre l = l := by
  unfold trimPrefixL
  simp [h]

/-- `sanitizeToSingleCommand` is the identity on a string that is
already a trimmed single line carrying no leading `"$ "` or `"> "`
prompt marker. -/
theorem sanitizeCore_id {l : List Char} (hnl : '\n' ∉ l)
    (ht : trimSpace l = l)
    (hd : List.isPrefixOf ['$', ' '] l = false)
    (hg : List.isPrefixOf ['>', ' '] l = false) :
    sanitizeCore l = l := by
  unfold sanitizeCore
  rw [ht, sanitizeStep2_id hnl, sanitizeStep3_id hnl ht, sanitizeStep4_id hnl,
    trimPrefixL_id hd, trimPrefixL_id hg, ht]

/-! ## Lemmas about collection and aggregation -/

theorem collectAux_snd (rs : List CallResult) :
    ∀ (fe : Option String) (acc : List CallResult),
      (collectAux (fe, acc) rs).2 = acc ++ rs := by
  induction rs with
  | nil => intro fe acc; simp [collectAux]
  | cons r rest ih =>
    intro fe acc
    show (collectAux (_, acc ++ [r]) rest).2 = _
    rw [ih]
    simp

theorem collectAux_fst_some (rs : List CallResult) :
    ∀ (e : String) (acc : List CallResult),
      (collectAux (some e, acc) rs).1 = some e := by
  induction rs with
  | nil => intro e acc; rfl
  | cons r rest ih =>
    intro e acc
    exact ih e (acc ++ [r])

theorem collect_snd (rs : List CallResult) : (collect rs).2 = rs := by
  simpa using collectAux_snd rs none []

theorem collect_fst_none {rs : List CallResult}
    (h : ∀ r ∈ rs, r.error = none) : (collect rs).1 = none := by
  unfold collect
  suffices hgen : ∀ (l : List CallResult), (∀ r ∈ l, r.error = none) →
      ∀ acc, (collectAux (none, acc) l).1 = none by
    exact hgen rs h []
  intro l
  induction l with
  | nil => intro _ acc; rfl
  | cons r rest ih =>
    intro hl acc
    show (collectAux (match (none : Option String) with
      | some e => some e
      | none => r.error, acc ++ [r]) rest).1 = none
    rw [hl r (List.mem_cons_self _ _)]
    exact ih (fun x hx => hl x (List.mem_cons_of_mem _ hx)) (acc ++ [r])

/-- The collection loop keeps the error of the first failing result in
completion order. -/
theorem collect_fst_firstError {pre post : List CallResult}
    {r : CallResult} {e : String} (he : r.error = some e)
    (hpre : ∀ x ∈ pre, x.error = none) :
    (collect (pre ++ r :: post)).1 = some e := by
  unfold collect
  suffices hgen : ∀ (l : List CallResult), (∀ x ∈ l, x.error = none) →
      ∀ acc, (collectAux (none, acc) (l ++ r :: post)).1 = some e by
    exact hgen pre hpre []
  intro l
  induction l with
  | nil =>
    intro _ acc
    show (collectAux (match (none : Option String) with
      | some e => some e
      | none => r.error, acc ++ [r]) post).1 = some e
    rw [he]
    exact collectAux_fst_some post e (acc ++ [r])
  | cons x rest ih =>
    intro hl acc
    show (collectAux (match (none : Option String) with
      | some e => some e
      | none => x.error, acc ++ [x]) (rest ++ r :: post)).1 = some e
    rw [hl x (List.mem_cons_self _ _)]
    exact ih (fun y hy => hl y (List.mem_cons_of_mem _ hy)) (acc ++ [x])

theorem mem_foldl_insert (cmds : List String) :
    ∀ (u : List String) (s : String),
      s ∈ cmds.foldl
        (fun u cmd => if u.contains cmd then u else u ++ [cmd]) u ↔
      s ∈ u ∨ s ∈ cmds := by
  induction cmds with
  | nil => simp
  | cons c cs ih =>
    intro u s
    simp only [List.foldl_cons]
    by_cases hc : u.contains c
    · rw [if_pos hc, ih]
      have hcu : c ∈ u := by simpa [List.contains] using List.elem_iff.mp hc
      simp only [List.mem_cons]
      constructor
      · rintro (h | h)
        · exact Or.inl h
        · exact Or.inr (Or.inr h)
      · rintro (h | h | h)
        · exact Or.inl h
        · exact Or.inl (h ▸ hcu)
        · exact Or.inr h
    · rw [if_neg hc, ih]
      simp [List.mem_append, List.mem_cons, or_assoc]

theorem mem_dedupeAux (rs : List CallResult) :
    ∀ (u : List String) (s : String),
      s ∈ rs.foldl
        (fun unique r => r.commands.foldl
          (fun u cmd => if u.contains cmd then u else u ++ [cmd]) unique) u ↔
      s ∈ u ∨ ∃ r ∈ rs, s ∈ r.commands := by
  induction rs with
  | nil => simp
  | cons r rest ih =>
    intro u s
    simp only [List.foldl_cons]
    rw [ih, mem_foldl_insert]
    constructor
    · rintro ((h | h) | ⟨x, hx, hs⟩)
      · exact Or.inl h
      · exact Or.inr ⟨r, List.mem_cons_self _ _, h⟩
      · exact Or.inr ⟨x, List.mem_cons_of_mem _ hx, hs⟩
    · rintro (h | ⟨x, hx, hs⟩)
      · exact Or.inl (Or.inl h)
      · rcases List.mem_cons.mp hx with hx | hx
        · exact Or.inl (Or.inr (hx ▸ hs))
        · exact Or.inr ⟨x, hx, hs⟩

/-- A command appears in the deduplicated list exactly when some
collected result produced it. -/
theorem mem_dedupeCommands {rs : List CallResult} {s : String} :
    s ∈ dedupeCommands rs ↔ ∃ r ∈ rs, s ∈ r.commands := by
  unfold dedupeCommands
  rw [mem_dedupeAux]
  simp

theorem nodup_foldl_insert (cmds : List String) :
    ∀ u : List String, u.Nodup →
      (cmds.foldl
        (fun u cmd => if u.contains cmd then u else u ++ [cmd]) u).Nodup := by
  induction cmds with
  | nil => intro u hu; exact hu
  | cons c cs ih =>
    intro u hu
    simp only [List.foldl_cons]
    by_cases hc : u.contains c
    · rw [if_pos hc]
      exact ih u hu
    · rw [if_neg hc]
      refine ih _ ?_
      have hcu : c ∉ u := fun hmem =>
        hc (by simpa [List.contains] using List.elem_iff.mpr hmem)
      simp [List.nodup_append, hu, hcu]

theorem dedupeCommands_nodup (rs : List CallResult) :
    (dedupeCommands rs).Nodup := by
  unfold dedupeCommands
  suffices hgen : ∀ (l : List CallResult) (u : List String), u.Nodup →
      (l.foldl (fun unique r => r.commands.foldl
        (fun u cmd => if u.contains cmd then u else u ++ [cmd]) unique) u).Nodup by
    exact hgen rs [] (by simp)
  intro l
  induction l with
  | nil => intro u hu; exact hu
  | cons r rest ih =>
    intro u hu
    simp only [List.foldl_cons]
    exact ih _ (nodup_foldl_insert r.commands u hu)

theorem foldl_duration (rs : List CallResult) :
    ∀ n : Nat, rs.foldl (fun acc r => acc + r.duration) n =
      n + (rs.map CallResult.duration).sum := by
  induction rs with
  | nil => simp
  | cons r rest ih =>
    intro n
    simp only [List.foldl_cons, List.map_cons, List.sum_cons]
    rw [ih, Nat.add_assoc]

/-- Shape of a successful aggregation: no collected error, and the
returned list is the combined result followed by the collected results
in completion order. -/
theorem getCommands_ok {rs l : List CallResult}
    (h : getCommands rs = Except.ok l) :
    (collect rs).1 = none ∧
    l = { commands := dedupeCommands rs,
          duration := (rs.map CallResult.duration).sum,
          rawResponse := none, error := none } :: rs := by
  have hsnd := collect_snd rs
  unfold getCommands at h
  cases hc : collect rs with
  | mk fe allResults =>
    rw [hc] at h hsnd
    simp only at hsnd
    cases fe with
    | some e => simp at h
    | none =>
      simp only [Except.ok.injEq] at h
      subst hsnd
      refine ⟨by simp [hc], ?_⟩
      rw [← h, foldl_duration]
      simp

theorem contains_false {c : Char} {l : List Char} (h : c ∉ l) :
    l.contains c = false := by
  cases hx : l.contains c with
  | false => rfl
  | true => exact absurd (by simpa [List.contains] using List.elem_iff.mp hx) h

theorem mem_buildAux (l : List String) :
    ∀ (acc : List String) (c : String),
      c ∈ l.foldl
        (fun commands x =>
          let cmd := sanitizeToSingleCommand x
          if cmd ≠ "" then commands ++ [cmd] else commands) acc →
      c ∈ acc ∨ ∃ x ∈ l, c = sanitizeToSingleCommand x := by
  induction l with
  | nil => intro acc c h; exact Or.inl h
  | cons a rest ih =>
    intro acc c h
    simp only [List.foldl_cons] at h
    rcases ih _ c h with h2 | ⟨x, hx, hc⟩
    · have h3 : c ∈ (if sanitizeToSingleCommand a ≠ "" then
          acc ++ [sanitizeToSingleCommand a] else acc) := h2
      by_cases ha : sanitizeToSingleCommand a ≠ ""
      · rw [if_pos ha] at h3
        rcases List.mem_append.mp h3 with h4 | h4
        · exact Or.inl h4
        · refine Or.inr ⟨a, List.mem_cons_self _ _, ?_⟩
          simpa using h4
      · rw [if_neg ha] at h3
        exact Or.inl h3
    · exact Or.inr ⟨x, List.mem_cons_of_mem _ hx, hc⟩

/-- Every string in a per-call command list is the sanitizer's output on
some candidate. -/
theorem mem_buildCommands {cands : List String} {c : String}
    (h : c ∈ buildCommands cands) :
    ∃ x ∈ cands, c = sanitizeToSingleCommand x := by
  rcases mem_buildAux cands [] c h with h2 | h2
  · exact absurd h2 (List.not_mem_nil c)
  · exact h2

/-! ## Claim theorems -/

/-- C1 (code bug evidence): the `break` in the `default` case of the flag
loop's `switch` exits only the `switch`, not the `for` loop, so
`taskStart` is overwritten by every later non-flag word and the task
passed to the prompt builder is only the tail starting at the *last*
non-flag argument — not all remaining non-flag words joined by spaces.
For `ai find biggest file` the code produces the task `"file"` instead of
`"find biggest file"`; for `ai -v list files here` it produces `"here"`.
The usage-error half of the claim does hold: with no non-flag word left,
`parseArgs` exits with code 2 (modelled by `none`) before any network
call. -/
theorem c1_taskExtraction :
    parseArgs ["ai", "find", "biggest", "file"] =
      some { verbose := false, numCommands := 3, task := "file" } ∧
    parseArgs ["ai", "-v", "list", "files", "here"] =
      some { verbose := true, numCommands := 3, task := "here" } ∧
    ("file" : String) ≠ "find biggest file" ∧
    parseArgs ["ai", "-v"] = none ∧
    parseArgs ["ai", "-n", "2"] = none :=
  ⟨by decide, by decide, by decide, by decide, by decide⟩

/-- C2 (counterexample): the collection loop appends results in channel
(completion) order and the deduplication scans that order, so two
different completion orders of the same two successful per-call results
yield differently ordered aggregated command lists (`["ls", "du"]`
versus `["du", "ls"]`), refuting order-invariance of the aggregated
list. -/
theorem c2_counterexample :
    List.Perm
      [({ commands := ["ls"], duration := 1 } : CallResult),
       { commands := ["du"], duration := 2 }]
      [{ commands := ["du"], duration := 2 },
       { commands := ["ls"], duration := 1 }] ∧
    getCommands
      [({ commands := ["ls"], duration := 1 } : CallResult),
       { commands := ["du"], duration := 2 }] =
      Except.ok [{ commands := ["ls", "du"], duration := 3 },
        { commands := ["ls"], duration := 1 },
        { commands := ["du"], duration := 2 }] ∧
    getCommands
      [({ commands := ["du"], duration := 2 } : CallResult),
       { commands := ["ls"], duration := 1 }] =
      Except.ok [{ commands := ["du", "ls"], duration := 3 },
        { commands := ["du"], duration := 2 },
        { commands := ["ls"], duration := 1 }] ∧
    (["ls", "du"] : List String) ≠ ["du", "ls"] :=
  ⟨by decide, rfl, rfl, by decide⟩

/-- C2 (amended): the aggregated list is built by scanning the per-call
results in the order they were collected from the channel (completion
order), keeping the first occurrence of each distinct command; for a
fixed collection order the output is deterministic, and for any two
completion orders of the same per-call results the aggregated lists
contain exactly the same commands — but their order may differ. -/
theorem c2_sameCommandsUpToOrder (rs1 rs2 : List CallResult)
    (hperm : rs1.Perm rs2) (c1 c2 : CallResult) (t1 t2 : List CallResult)
    (h1 : getCommands rs1 = Except.ok (c1 :: t1))
    (h2 : getCommands rs2 = Except.ok (c2 :: t2)) :
    ∀ s : String, s ∈ c1.commands ↔ s ∈ c2.commands := by
  obtain ⟨-, hshape1⟩ := getCommands_ok h1
  obtain ⟨-, hshape2⟩ := getCommands_ok h2
  simp only [List.cons.injEq] at hshape1 hshape2
  intro s
  rw [hshape1.1, hshape2.1]
  show s ∈ dedupeCommands rs1 ↔ s ∈ dedupeCommands rs2
  rw [mem_dedupeCommands, mem_dedupeCommands]
  constructor
  · rintro ⟨r, hr, hs⟩
    exact ⟨r, hperm.mem_iff.mp hr, hs⟩
  · rintro ⟨r, hr, hs⟩
    exact ⟨r, hperm.mem_iff.mpr hr, hs⟩

/-- Witness for C2 (amended) at a concrete pair of completion orders. -/
theorem c2_sameCommandsUpToOrder_witness :
    ("du" ∈ (["ls", "du"] : List String)) ↔
      "du" ∈ (["du", "ls"] : List String) :=
  c2_sameCommandsUpToOrder
    [{ commands := ["ls"], duration := 1 }, { commands := ["du"], duration := 2 }]
    [{ commands := ["du"], duration := 2 }, { commands := ["ls"], duration := 1 }]
    (by decide)
    { commands := ["ls", "du"], duration := 3 }
    { commands := ["du", "ls"], duration := 3 }
    [{ commands := ["ls"], duration := 1 }, { commands := ["du"], duration := 2 }]
    [{ commands := ["du"], duration := 2 }, { commands := ["ls"], duration := 1 }]
    rfl rfl "du"

/-- C3: if any collected result carries an error, `getCommands` returns
exactly one error — the error of the first failing result in completion
order — and produces no usable aggregated command list (the `Except` is
an `error`, not an `ok`). -/
theorem c3_firstFailureWins (pre post : List CallResult) (r : CallResult)
    (e : String) (he : r.error = some e)
    (hpre : ∀ x ∈ pre, x.error = none) :
    getCommands (pre ++ r :: post) = Except.error e := by
  unfold getCommands
  cases hc : collect (pre ++ r :: post) with
  | mk fe all =>
    have hfe := @collect_fst_firstError pre post r e he hpre
    rw [hc] at hfe
    have hfe2 : fe = some e := hfe
    subst hfe2
    rfl

/-- Witness for C3: three concurrent calls, all failing, in completion
order `boom1`, `boom2`, `boom3`; exactly the first is reported. -/
theorem c3_firstFailureWins_witness :
    getCommands
      [({ error := some "boom1", duration := 1 } : CallResult),
       { error := some "boom2", duration := 2 },
       { error := some "boom3", duration := 3 }] = Except.error "boom1" :=
  c3_firstFailureWins []
    [{ error := some "boom2", duration := 2 },
     { error := some "boom3", duration := 3 }]
    { error := some "boom1", duration := 1 } "boom1" rfl (by simp)

/-- C4: on any successful run the aggregated (combined) command list
contains no two equal strings, whatever the per-call lists were. -/
theorem c4_noDuplicates (rs : List CallResult) (c : CallResult)
    (t : List CallResult) (h : getCommands rs = Except.ok (c :: t)) :
    c.commands.Nodup := by
  obtain ⟨-, hshape⟩ := getCommands_ok h
  simp only [List.cons.injEq] at hshape
  rw [hshape.1]
  exact dedupeCommands_nodup rs

/-- Witness for C4: duplicates within one call and across calls are
collapsed to a duplicate-free aggregated list. -/
theorem c4_noDuplicates_witness :
    (["ls", "du", "df"] : List String).Nodup :=
  c4_noDuplicates
    [{ commands := ["ls", "du", "ls"], duration := 1 },
     { commands := ["ls", "df"], duration := 2 }]
    { commands := ["ls", "du", "df"], duration := 3 }
    [{ commands := ["ls", "du", "ls"], duration := 1 },
     { commands := ["ls", "df"], duration := 2 }]
    rfl

/-- C5 (counterexample): the normalizer's strategy 2 triggers on a
non-*empty* output-text field, not a non-*blank* one.  On a response
whose candidates collection is empty, whose output-text is the blank
string `" "`, and whose output items carry the non-blank text `"ls"`,
the first strategy yielding a non-blank candidate is strategy 3 — yet
the pipeline returns `[" "]` from strategy 2, so the claim's "first
strategy yielding at least one non-blank candidate wins" is false as
stated. -/
theorem c5_counterexample :
    pipelineCandidates { outputText := " ", output := [{ text := "ls" }] } =
      [" "] ∧
    candidateParts { outputText := " ", output := [{ text := "ls" }] } = [] ∧
    trimString " " = "" ∧
    outputFallback { outputText := " ", output := [{ text := "ls" }] } =
      ["ls"] ∧
    ([" "] : List String) ≠ ["ls"] :=
  ⟨by decide, by decide, by decide, by decide, by decide⟩

/-- C5 (amended): the strategies are mutually exclusive in priority
order with these triggers: strategy 1 fires when the candidates
collection yields at least one non-blank part text; otherwise strategy 2
fires when the output-text field is non-empty (even if blank); otherwise
strategy 3 scans the output items.  In particular, whenever strategy 1
yields anything, the pipeline returns exactly the candidates derived
from the candidates collection and the output-text field is ignored. -/
theorem c5_candidatesFieldWins (rr : responseResp)
    (h : candidateParts rr ≠ []) :
    pipelineCandidates rr = candidateParts rr := by
  unfold pipelineCandidates extractCandidates
  simp [h]

/-- Witness for C5 (amended): a response exposing both a non-empty
candidates collection and a non-empty output-text yields exactly the
candidates-collection texts. -/
theorem c5_candidatesFieldWins_witness :
    candidateParts
      { candidates := [{ content := { parts := [{ text := "ls -la" }] } }],
        outputText := "echo hi" } ≠ [] ∧
    pipelineCandidates
      { candidates := [{ content := { parts := [{ text := "ls -la" }] } }],
        outputText := "echo hi" } =
    candidateParts
      { candidates := [{ content := { parts := [{ text := "ls -la" }] } }],
        outputText := "echo hi" } :=
  ⟨by decide, c5_candidatesFieldWins _ (by decide)⟩

/-- C6 (counterexample): the sanitizer is *not* idempotent on its own
output: it strips only one leading `"$ "` marker per run, so
`sanitize "$ $ ls" = "$ ls"` while `sanitize "$ ls" = "ls"`. -/
theorem c6_counterexample :
    sanitizeToSingleCommand (sanitizeToSingleCommand "$ $ ls") ≠
      sanitizeToSingleCommand "$ $ ls" ∧
    sanitizeToSingleCommand "$ $ ls" = "$ ls" ∧
    sanitizeToSingleCommand "$ ls" = "ls" :=
  ⟨by decide, by decide, by decide⟩

/-- C6 (amended): `sanitize (sanitize x) = sanitize x` for every input
`x` whose sanitized output does not itself begin with a `"$ "` or `"> "`
prompt marker — in particular for every already-clean single-line
command, on which the sanitizer is the identity.  (The counterexample
`x = "$ $ ls"` shows the restriction is necessary.) -/
theorem c6_idempotentOnCleanOutput (x : String)
    (hd : List.isPrefixOf ['$', ' '] (sanitizeToSingleCommand x).data = false)
    (hg : List.isPrefixOf ['>', ' '] (sanitizeToSingleCommand x).data = false) :
    sanitizeToSingleCommand (sanitizeToSingleCommand x) =
      sanitizeToSingleCommand x := by
  simp only [sanitizeToSingleCommand] at hd hg ⊢
  exact congrArg String.mk
    (sanitizeCore_id (sanitizeCore_no_nl x.data)
      (sanitizeCore_trimmed x.data) hd hg)

/-- Witness for C6 (amended) at the clean command `"ls -la"`. -/
theorem c6_idempotentOnCleanOutput_witness :
    List.isPrefixOf ['$', ' ']
      (sanitizeToSingleCommand "ls -la").data = false ∧
    List.isPrefixOf ['>', ' ']
      (sanitizeToSingleCommand "ls -la").data = false ∧
    sanitizeToSingleCommand (sanitizeToSingleCommand "ls -la") =
      sanitizeToSingleCommand "ls -la" :=
  ⟨by decide, by decide,
    c6_idempotentOnCleanOutput "ls -la" (by decide) (by decide)⟩

/-- C7: on full success the combined result's duration is the exact sum
of the individual calls' durations (not a wall-clock span — there is
none in the sum), and the verbose report's average is that sum divided
by the number N of individual calls. -/
theorem c7_durationSum (rs : List CallResult) (c : CallResult)
    (t : List CallResult) (h : getCommands rs = Except.ok (c :: t)) :
    c.duration = (rs.map CallResult.duration).sum ∧ t = rs ∧
    averageDuration (c :: t) =
      (rs.map CallResult.duration).sum / rs.length := by
  obtain ⟨-, hshape⟩ := getCommands_ok h
  simp only [List.cons.injEq] at hshape
  obtain ⟨hc, ht⟩ := hshape
  subst ht
  rw [hc]
  exact ⟨rfl, rfl, rfl⟩

/-- Witness for C7: two calls of 10 and 20 nanoseconds sum to 30, with
average 15. -/
theorem c7_durationSum_witness :
    averageDuration
      [{ commands := ["ls", "du"], duration := 30 },
       { commands := ["ls"], duration := 10 },
       { commands := ["du"], duration := 20 }] = 15 := by
  have h := c7_durationSum
    [{ commands := ["ls"], duration := 10 },
     { commands := ["du"], duration := 20 }]
    { commands := ["ls", "du"], duration := 30 }
    [{ commands := ["ls"], duration := 10 },
     { commands := ["du"], duration := 20 }]
    rfl
  exact h.2.2

/-- C8: if every call succeeds but none yields a sanitized command, the
aggregation returns an empty combined command list, and `main` neither
crashes nor executes anything: it prints "No commands generated" and
exits with code 1. -/
theorem c8_noCommandsGenerated (rs : List CallResult)
    (hok : ∀ r ∈ rs, r.error = none)
    (hempty : ∀ r ∈ rs, r.commands = []) :
    mainDispatch (getCommands rs) = MainOutcome.noCommands ∧
    outcomeMessage (mainDispatch (getCommands rs)) =
      some "No commands generated" ∧
    outcomeExitCode (mainDispatch (getCommands rs)) = some 1 := by
  have hfe := collect_fst_none hok
  have hsnd := collect_snd rs
  have hdd : dedupeCommands rs = [] := by
    rw [List.eq_nil_iff_forall_not_mem]
    intro s hs
    obtain ⟨r, hr, hsr⟩ := mem_dedupeCommands.mp hs
    rw [hempty r hr] at hsr
    exact absurd hsr (List.not_mem_nil s)
  unfold getCommands
  cases hc : collect rs with
  | mk fe all =>
    rw [hc] at hfe hsnd
    have hfe2 : fe = none := hfe
    have hall : all = rs := hsnd
    subst hfe2
    subst hall
    simp [mainDispatch, outcomeMessage, outcomeExitCode, hdd]

/-- Witness for C8: two successful calls (N = 2) with empty command
lists. -/
theorem c8_noCommandsGenerated_witness :
    mainDispatch (getCommands
      [({ duration := 5 } : CallResult), { duration := 7 }]) =
        MainOutcome.noCommands ∧
    outcomeMessage (mainDispatch (getCommands
      [({ duration := 5 } : CallResult), { duration := 7 }])) =
        some "No commands generated" ∧
    outcomeExitCode (mainDispatch (getCommands
      [({ duration := 5 } : CallResult), { duration := 7 }])) = some 1 :=
  c8_noCommandsGenerated
    [{ duration := 5 }, { duration := 7 }] (by decide) (by decide)

/-- C9: the sanitizer meets its three reference vectors: fenced-block
extraction, comment-line skipping, and prompt-marker stripping all
yield `"ls -la"`. -/
theorem c9_sanitizerVectors :
    sanitizeToSingleCommand "```bash\nls -la\n```" = "ls -la" ∧
    sanitizeToSingleCommand "# a note\nls -la" = "ls -la" ∧
    sanitizeToSingleCommand "$ ls -la" = "ls -la" :=
  ⟨by decide, by decide, by decide⟩

/-- C10: for every input string the sanitizer's output contains no
newline and equals its own whitespace-trim; hence every command placed
in a per-call command list (and therefore in the aggregated list, whose
entries come from per-call lists) is a single trimmed line. -/
theorem c10_singleTrimmedLine :
    (∀ s : String,
      (sanitizeToSingleCommand s).data.contains '\n' = false ∧
      trimString (sanitizeToSingleCommand s) = sanitizeToSingleCommand s) ∧
    (∀ candidates : List String, ∀ c ∈ buildCommands candidates,
      c.data.contains '\n' = false ∧ trimString c = c) := by
  have hone : ∀ s : String,
      (sanitizeToSingleCommand s).data.contains '\n' = false ∧
      trimString (sanitizeToSingleCommand s) = sanitizeToSingleCommand s := by
    intro s
    constructor
    · exact contains_false (sanitizeCore_no_nl s.data)
    · show String.mk (trimSpace (sanitizeCore s.data)) = _
      rw [sanitizeCore_trimmed]
      rfl
  refine ⟨hone, ?_⟩
  intro candidates c hc
  obtain ⟨x, -, hcx⟩ := mem_buildCommands hc
  rw [hcx]
  exact hone x

/-- Witness for C10's per-call-list half at a concrete candidate list. -/
theorem c10_singleTrimmedLine_witness :
    ("ls" : String).data.contains '\n' = false ∧
    trimString "ls" = "ls" :=
  c10_singleTrimmedLine.2 ["$ ls\n$ du"] "ls" (by decide)
